import Mathlib

set_option maxRecDepth 8000

/-!
A shallow embedding of the regular-expression parser of `main.py`.

The source defines AST node classes `Node` (bare base class), `Normal`,
`Any`, `ZeroOrMore`, `Or`, `Str`, each with a display-form `__str__`,
and a recursive-descent `Parser` over a list of characters with a sticky
`failure` flag, rules `regex` / `term` / `factor` / `base`, primitive
operations `next_token` / `peek` / `accept` / `expect` / `error`, and a
top-level `parse` that checks for trailing input.

Modelling choices:
* machine state is `ParserState` (remaining tokens, failure flag, and the
  ordered list of error messages emitted via `error`; the messages are
  structured as `ParseError` values mirroring the source's message texts);
* the Python methods mutate `self`; here every operation takes and returns
  the state explicitly.  `accept` returns its boolean together with the new
  state; since a failed `accept` leaves the state unchanged, call sites can
  re-read the original state on the false branch exactly as the source does;
* Python raises `IndexError` if `peek` (`self.tokens[0]`) runs on an empty
  list; all rules therefore return `Option`, with `none` marking a run that
  the source could not complete (an out-of-range `peek`, or exhaustion of
  the explicit recursion fuel).  A theorem below shows `none` is never
  produced for the fuel chosen by `parse`, i.e. the source never crashes
  and terminates on every input;
* recursion is fuelled: every recursive call decreases the fuel by one,
  and `parse` supplies `5 * length + 6` fuel, proven sufficient.
-/

/-- The AST node variants of the source (`Normal`, `Any`, `ZeroOrMore`,
`Or`, `Str`), plus `NodeObj` for the bare `Node()` instance that
`Parser.base` returns on its `*` error path. -/
inductive Node : Type where
  | Normal (char : Char)
  | Any : Node
  | ZeroOrMore (exp : Node)
  | Or (exp1 exp2 : Node)
  | Str (exps : List Node)
  | NodeObj : Node
deriving Repr

mutual

/-- Display-form rendering (`__str__` of each node class), as a character
list.  The bare `Node` object has no `__str__` of its own in the source
(Python would print a default object repr); it is rendered here as the
empty list and is proven (claim C10) never to occur in a returned tree. -/
def dispChars : Node → List Char
  | .Normal c => [c]
  | .Any => ['.']
  | .ZeroOrMore e => dispChars e ++ ['*']
  | .Or e1 e2 => dispChars e1 ++ '|' :: dispChars e2
  | .Str es => '(' :: dispCharsList es ++ [')']
  | .NodeObj => []

/-- Concatenation of the children's renderings (`''.join` in `Str.__str__`). -/
def dispCharsList : List Node → List Char
  | [] => []
  | e :: es => dispChars e ++ dispCharsList es
end

/-- Display form as a `String` (the value of `str(node)` in the source). -/
def disp (t : Node) : String := ⟨dispChars t⟩

/-- The error messages the source can emit through `Parser.error`:
`"Unexpected symbol: <c>"`, `"Unexpected end of file"`, `"Empty factor"`. -/
inductive ParseError : Type where
  | unexpectedSymbol (c : Char)
  | unexpectedEndOfFile
  | emptyFactor
deriving Repr, DecidableEq

/-- Parser state: `self.tokens` (remaining input characters), the sticky
`self.failure` flag, and the ordered list of messages printed by
`self.error` (the source also stores the original input string, used only
inside the printed message text). -/
structure ParserState : Type where
  tokens : List Char
  failure : Bool
  errors : List ParseError
deriving Repr, DecidableEq

namespace Parser

/-- `Parser.__init__`: fresh token list, failure flag unset. -/
def init (inp : List Char) : ParserState := ⟨inp, false, []⟩

/-- `Parser.error`: print the message (recorded here in order) and set the
failure flag. -/
def error (e : ParseError) (s : ParserState) : ParserState :=
  { s with failure := true, errors := s.errors ++ [e] }

/-- `Parser.next_token`: drop the first remaining character. -/
def nextToken (s : ParserState) : ParserState := { s with tokens := s.tokens.drop 1 }

/-- `Parser.accept`: if input remains and the next character is `symbol`,
consume it and return true; otherwise return false, leaving the state
unchanged. -/
def accept (symbol : Char) (s : ParserState) : Bool × ParserState :=
  match s.tokens with
  | t :: _ => if t = symbol then (true, nextToken s) else (false, s)
  | [] => (false, s)

/-- `Parser.expect`: `accept`, and on failure record either
`Unexpected symbol: <peek>` or `Unexpected end of file`. -/
def expect (symbol : Char) (s : ParserState) : ParserState :=
  if (accept symbol s).1 then (accept symbol s).2
  else
    match s.tokens with
    | t :: _ => error (.unexpectedSymbol t) s
    | [] => error .unexpectedEndOfFile s

/-!
The four grammar rules.  Each takes explicit fuel; every recursive call
uses the predecessor fuel, and `none` means the run either exhausted its
fuel or hit the one unguarded `self.tokens[0]` access in `base` (the
`Normal` branch) with no input left.  On the false branch of an `accept`
the state is unchanged, so the source's sequential `accept` calls are
rendered by re-applying `accept` to the same state.
-/

mutual

/-- `Parser.regex`: one `term`; then, if input remains and `|` is accepted,
one more `term`, combined with `Or`. -/
def regex : Nat → ParserState → Option (Node × ParserState)
  | 0, _ => none
  | fuel + 1, s =>
    match term fuel s with
    | some (t, s1) =>
      if s1.tokens ≠ [] ∧ (accept '|' s1).1 then
        match term fuel (accept '|' s1).2 with
        | some (t2, s2) => some (.Or t t2, s2)
        | none => none
      else some (t, s1)
    | none => none

/-- `Parser.term`: collect factors with the while-loop (`termLoop`); if none
were collected record `Empty factor`; if exactly one was collected return
it unwrapped, otherwise return the `Str` of the collected factors. -/
def term : Nat → ParserState → Option (Node × ParserState)
  | 0, _ => none
  | fuel + 1, s =>
    match termLoop fuel s [] with
    | some (exps, s1) =>
      some ((match exps with | [e] => e | _ => Node.Str exps),
            if exps.isEmpty then error .emptyFactor s1 else s1)
    | none => none

/-- The while-loop of `Parser.term`: while input remains and the next
character is neither `)` nor `|`, parse a `factor` and append it. -/
def termLoop : Nat → ParserState → List Node → Option (List Node × ParserState)
  | 0, _, _ => none
  | fuel + 1, s, acc =>
    match s.tokens with
    | t :: _ =>
      if t = ')' ∨ t = '|' then some (acc, s)
      else
        match factor fuel s with
        | some (n, s1) => termLoop fuel s1 (acc ++ [n])
        | none => none
    | [] => some (acc, s)

/-- `Parser.factor`: one `base`; if `*` is accepted, wrap it in
`ZeroOrMore`. -/
def factor : Nat → ParserState → Option (Node × ParserState)
  | 0, _ => none
  | fuel + 1, s =>
    match base fuel s with
    | some (b, s1) =>
      if (accept '*' s1).1 then some (.ZeroOrMore b, (accept '*' s1).2)
      else some (b, s1)
    | none => none

/-- `Parser.base`: a parenthesized `regex` (closed by `expect ')'`), a `.`
wildcard, the `*` error path (records `Unexpected symbol: *` and returns a
bare `Node()`), or a single literal character (the `self.peek()` call here
is the unguarded list access; `none` models the `IndexError` it would
raise on empty input). -/
def base : Nat → ParserState → Option (Node × ParserState)
  | 0, _ => none
  | fuel + 1, s =>
    if (accept '(' s).1 then
      match regex fuel (accept '(' s).2 with
      | some (r, s2) => some (r, expect ')' s2)
      | none => none
    else if (accept '.' s).1 then
      some (.Any, (accept '.' s).2)
    else if (accept '*' s).1 then
      some (.NodeObj, error (.unexpectedSymbol '*') (accept '*' s).2)
    else
      match s.tokens with
      | t :: _ => some (.Normal t, nextToken s)
      | [] => none

end

/-- `Parser.parse`: run `regex`; if characters remain, record
`Unexpected symbol: <peek>`; return the tree only if the failure flag is
still unset. -/
def parseAux (fuel : Nat) (s : ParserState) : Option (Option Node × ParserState) :=
  match regex fuel s with
  | some (r, s1) =>
    let s2 := match s1.tokens with
      | t :: _ => error (.unexpectedSymbol t) s1
      | [] => s1
    some (if s2.failure then none else some r, s2)
  | none => none

/-- Fuel supplied to the fuelled rules; proven sufficient below. -/
def fuelFor (inp : List Char) : Nat := 5 * inp.length + 6

/-- One whole parse of a character list, from a fresh parser. -/
def parseL (inp : List Char) : Option (Option Node × ParserState) :=
  parseAux (fuelFor inp) (init inp)

/-- One whole parse of a string (`Parser(inp).parse()`). -/
def parse (inp : String) : Option (Option Node × ParserState) :=
  parseL inp.toList

/-- The value `Parser(inp).parse()` returns: the tree, or `None`. -/
def parseResult (inp : String) : Option Node :=
  match parse inp with
  | some (r, _) => r
  | none => none

/-- The error messages one whole parse of `inp` prints, in order. -/
def parseErrors (inp : String) : List ParseError :=
  match parse inp with
  | some (_, s) => s.errors
  | none => []

end Parser

namespace Parser

/-- The five reserved structural characters (spec terminology): any other
character is a literal. -/
def reservedChars : List Char := ['(', ')', '|', '*', '.']

mutual

/-- Structural well-formedness of a returned tree (claim C10): only the
five concrete variants occur — never the bare `Node()` sentinel — and
every `Str` node carries at least two children. -/
def wf : Node → Bool
  | .Normal _ => true
  | .Any => true
  | .ZeroOrMore e => wf e
  | .Or e1 e2 => wf e1 && wf e2
  | .Str es => decide (2 ≤ es.length) && wfList es
  | .NodeObj => false

/-- `wf` on every member of a list of children. -/
def wfList : List Node → Bool
  | [] => true
  | e :: es => wf e && wfList es

end

/-- Does the node render as a single `base`-level unit (one character, the
dot, or a parenthesized group)? -/
def baseShape : Node → Bool
  | .Normal _ => true
  | .Any => true
  | .Str _ => true
  | _ => false

mutual

/-- Trees whose rendering re-parses, as one `factor`, to the same tree:
non-reserved literals, the wildcard, groups of at least two such factors,
and at most one `*` over a base-shaped such tree. -/
def factorGood : Node → Bool
  | .Normal c => decide (c ∉ reservedChars)
  | .Any => true
  | .ZeroOrMore e => baseShape e && factorGood e
  | .Str es => decide (2 ≤ es.length) && factorGoodList es
  | _ => false

/-- `factorGood` on every member of a list of children. -/
def factorGoodList : List Node → Bool
  | [] => true
  | e :: es => factorGood e && factorGoodList es

end

/-- Trees whose rendering re-parses, as a whole input, to the same tree: a
good factor, or an alternation of two good factors (a bare `|` at any other
position does not survive a round trip, because `Or.__str__` never adds
parentheses). -/
def regexGood : Node → Bool
  | .Or e1 e2 => factorGood e1 && factorGood e2
  | t => factorGood t

/-- The four grammar rule levels of the parser. -/
inductive Rule : Type where
  | regex
  | term
  | factor
  | base

/-- The grammar the parser accepts (the doc comment of `main.py`, with
`<char>` any non-reserved character, one-or-more factors per term — the
parser rejects an empty term with `Empty factor` — and at most one `*` per
factor, since `Parser.factor` consumes at most one quantifier). -/
inductive Valid : Rule → List Char → Prop where
  | chr {c : Char} : c ∉ reservedChars → Valid .base [c]
  | dot : Valid .base ['.']
  | grp {w : List Char} : Valid .regex w → Valid .base ('(' :: w ++ [')'])
  | fac {w : List Char} : Valid .base w → Valid .factor w
  | facStar {w : List Char} : Valid .base w → Valid .factor (w ++ ['*'])
  | termOne {w : List Char} : Valid .factor w → Valid .term w
  | termCons {w v : List Char} : Valid .factor w → Valid .term v → Valid .term (w ++ v)
  | regOne {w : List Char} : Valid .term w → Valid .regex w
  | regOr {w v : List Char} : Valid .term w → Valid .term v → Valid .regex (w ++ '|' :: v)

/-- Stop condition of the `term` loop: the next character is `)` or `|`, or
the input is exhausted. -/
def stopTok (rest : List Char) : Prop :=
  rest.head? = some ')' ∨ rest.head? = some '|' ∨ rest = []

/-- Invariant tying the failure flag to the error log: the flag is set
exactly when at least one error message has been printed. -/
def Pinv (s : ParserState) : Prop := s.failure = true ↔ s.errors ≠ []

/-- What the parser provably does on each kind of valid phrase: it consumes
exactly the phrase, records nothing, and returns some node (with enough
fuel; `term`-level phrases are stated through the loop, for any
accumulator, and stop at `)`/`|`/end-of-input). -/
def ValidP : Rule → List Char → Prop
  | .base, w => ∀ (s : ParserState) (rest : List Char) (fuel : Nat),
      s.tokens = w ++ rest → 5 * s.tokens.length < fuel →
      ∃ t, base fuel s = some (t, ⟨rest, s.failure, s.errors⟩)
  | .factor, w => ∀ (s : ParserState) (rest : List Char) (fuel : Nat),
      s.tokens = w ++ rest → rest.head? ≠ some '*' → 5 * s.tokens.length + 1 < fuel →
      ∃ t, factor fuel s = some (t, ⟨rest, s.failure, s.errors⟩)
  | .term, w => ∀ (s : ParserState) (rest : List Char) (acc : List Node) (fuel : Nat),
      s.tokens = w ++ rest → stopTok rest → 5 * s.tokens.length + 2 < fuel →
      ∃ ts, ts ≠ [] ∧ termLoop fuel s acc = some (acc ++ ts, ⟨rest, s.failure, s.errors⟩)
  | .regex, w => ∀ (s : ParserState) (rest : List Char) (fuel : Nat),
      s.tokens = w ++ rest → (rest.head? = some ')' ∨ rest = []) →
      5 * s.tokens.length + 4 < fuel →
      ∃ t, regex fuel s = some (t, ⟨rest, s.failure, s.errors⟩)

/-- Round-trip statement at `base` level: parsing the rendering of `t`
consumes exactly it and rebuilds `t` itself. -/
def RBp (t : Node) : Prop :=
  ∀ (s : ParserState) (rest : List Char) (fuel : Nat),
    s.tokens = dispChars t ++ rest → 5 * s.tokens.length < fuel →
    base fuel s = some (t, ⟨rest, s.failure, s.errors⟩)

/-- Round-trip statement at `factor` level. -/
def RFp (t : Node) : Prop :=
  ∀ (s : ParserState) (rest : List Char) (fuel : Nat),
    s.tokens = dispChars t ++ rest → rest.head? ≠ some '*' →
    5 * s.tokens.length + 1 < fuel →
    factor fuel s = some (t, ⟨rest, s.failure, s.errors⟩)

/-- Round-trip statement for the `term` loop over a rendered factor list. -/
def RLp (es : List Node) : Prop :=
  ∀ (s : ParserState) (rest : List Char) (acc : List Node) (fuel : Nat),
    s.tokens = dispCharsList es ++ rest → stopTok rest →
    5 * s.tokens.length + 2 < fuel →
    termLoop fuel s acc = some (acc ++ es, ⟨rest, s.failure, s.errors⟩)


end Parser

/-!
### Concrete behaviour of the parser on the spec's example inputs
-/

/-- Claim C2: the example inputs parse to the specified trees: `a*` to
`ZeroOrMore (Normal 'a')`; `ab` to `Str [Normal 'a', Normal 'b']`, whose
display form is `"(ab)"`; `a|b` to `Or (Normal 'a') (Normal 'b')`; and
`(a|b)*` to `ZeroOrMore (Or (Normal 'a') (Normal 'b'))`. -/
theorem claim_C2_examples :
    Parser.parseResult "a*" = some (.ZeroOrMore (.Normal 'a')) ∧
    Parser.parseResult "ab" = some (.Str [.Normal 'a', .Normal 'b']) ∧
    disp (.Str [.Normal 'a', .Normal 'b']) = "(ab)" ∧
    Parser.parseResult "a|b" = some (.Or (.Normal 'a') (.Normal 'b')) ∧
    Parser.parseResult "(a|b)*" = some (.ZeroOrMore (.Or (.Normal 'a') (.Normal 'b'))) :=
  ⟨rfl, rfl, rfl, rfl, rfl⟩

/-- Claim C3: on `a|b|c` the `regex` rule parses `a`, consumes the first
`|`, parses `b`, and returns `Or (Normal 'a') (Normal 'b')` leaving `|c`
unconsumed with no error yet; the overall parse then fails with the
trailing `Unexpected symbol: |` error and returns no tree. -/
theorem claim_C3_single_bar :
    Parser.regex (Parser.fuelFor "a|b|c".toList) (Parser.init "a|b|c".toList)
      = some (.Or (.Normal 'a') (.Normal 'b'), ⟨['|', 'c'], false, []⟩) ∧
    Parser.parse "a|b|c" = some (none, ⟨['|', 'c'], true, [.unexpectedSymbol '|']⟩) :=
  ⟨rfl, rfl⟩

/-- Claim C4 (counterexample): on `)(` the first recorded error is
`Empty factor`, not `Unexpected symbol: )`; the full error list is
`[Empty factor, Unexpected symbol: )]`. -/
theorem claim_C4_counterexample :
    Parser.parseErrors ")(" = [.emptyFactor, .unexpectedSymbol ')'] ∧
    (Parser.parseErrors ")(").head? ≠ some (.unexpectedSymbol ')') :=
  ⟨rfl, by decide⟩

/-- Claim C4 (amended): parsing `)(` fails and returns no tree; the `term`
rule, seeing `)`, collects zero factors and records `Empty factor` without
consuming anything (so `base` is never reached with `)`); the
`Unexpected symbol: )` error is then recorded afterwards, by the
trailing-input check in `parse`. -/
theorem claim_C4_amended :
    Parser.term (Parser.fuelFor ")(".toList) (Parser.init ")(".toList)
      = some (.Str [], ⟨[')', '('], true, [.emptyFactor]⟩) ∧
    Parser.parse ")(" = some (none, ⟨[')', '('], true, [.emptyFactor, .unexpectedSymbol ')']⟩) :=
  ⟨rfl, rfl⟩

/-- Claim C5: `*` fails with `Unexpected symbol: *` (a factor cannot begin
with a quantifier), and `a**` fails with `Unexpected symbol: *` (after
`a*` the second `*` cannot start a new base); both return no tree. -/
theorem claim_C5_star_errors :
    Parser.parse "*" = some (none, ⟨[], true, [.unexpectedSymbol '*']⟩) ∧
    Parser.parse "a**" = some (none, ⟨[], true, [.unexpectedSymbol '*']⟩) :=
  ⟨rfl, rfl⟩

/-- Claim C6: the empty input and the empty group `()` both fail with
`Empty factor` (the `term` rule collected zero factors) and return no
tree. -/
theorem claim_C6_empty_factor :
    Parser.parse "" = some (none, ⟨[], true, [.emptyFactor]⟩) ∧
    Parser.parse "()" = some (none, ⟨[], true, [.emptyFactor]⟩) :=
  ⟨rfl, rfl⟩

/-!
### Basic facts about the primitive operations
-/

namespace Parser

theorem error_failure (e : ParseError) (s : ParserState) : (error e s).failure = true := rfl

theorem error_errors (e : ParseError) (s : ParserState) :
    (error e s).errors = s.errors ++ [e] := rfl

theorem error_tokens (e : ParseError) (s : ParserState) : (error e s).tokens = s.tokens := rfl

theorem nextToken_failure (s : ParserState) : (nextToken s).failure = s.failure := rfl

theorem accept_failure (c : Char) (s : ParserState) : ((accept c s).2).failure = s.failure := by
  unfold accept
  cases h : s.tokens with
  | nil => rfl
  | cons t ts => by_cases ht : t = c <;> simp [ht, nextToken]

theorem accept_errors (c : Char) (s : ParserState) : ((accept c s).2).errors = s.errors := by
  unfold accept
  cases h : s.tokens with
  | nil => rfl
  | cons t ts => by_cases ht : t = c <;> simp [ht, nextToken]

theorem accept_cons_eq {c : Char} {s : ParserState} {ts : List Char} (h : s.tokens = c :: ts) :
    accept c s = (true, { s with tokens := ts }) := by
  simp [accept, h, nextToken]

theorem accept_cons_ne {c t : Char} {s : ParserState} {ts : List Char}
    (h : s.tokens = t :: ts) (hne : t ≠ c) : accept c s = (false, s) := by
  simp [accept, h, hne]

theorem accept_nil {c : Char} {s : ParserState} (h : s.tokens = []) : accept c s = (false, s) := by
  simp [accept, h]

theorem accept_len (c : Char) (s : ParserState) :
    ((accept c s).2).tokens.length ≤ s.tokens.length := by
  cases hts : s.tokens with
  | nil => rw [accept_nil hts]; simp [hts]
  | cons t ts =>
    by_cases ht : t = c
    · subst ht; rw [accept_cons_eq hts]; simp [hts]
    · rw [accept_cons_ne hts ht]; simp [hts]

theorem accept_true_len {c : Char} {s : ParserState} (h : (accept c s).1 = true) :
    ((accept c s).2).tokens.length + 1 = s.tokens.length := by
  cases hts : s.tokens with
  | nil => rw [accept_nil hts] at h; simp at h
  | cons t ts =>
    by_cases ht : t = c
    · subst ht; rw [accept_cons_eq hts]; simp [hts]
    · rw [accept_cons_ne hts ht] at h; simp at h

theorem accept_false_eq {c : Char} {s : ParserState} (h : (accept c s).1 = false) :
    (accept c s).2 = s := by
  cases hts : s.tokens with
  | nil => rw [accept_nil hts]
  | cons t ts =>
    by_cases ht : t = c
    · subst ht; rw [accept_cons_eq hts] at h; simp at h
    · rw [accept_cons_ne hts ht]

theorem expect_sticky {c : Char} {s : ParserState} (h : s.failure = true) :
    (expect c s).failure = true := by
  unfold expect
  split
  · rw [accept_failure]; exact h
  · split <;> rfl

theorem expect_unfail {c : Char} {s : ParserState} (h : (expect c s).failure = false) :
    s.failure = false := by
  unfold expect at h
  split at h
  · rwa [accept_failure] at h
  · split at h <;> simp [error] at h

theorem expect_len (c : Char) (s : ParserState) :
    (expect c s).tokens.length ≤ s.tokens.length := by
  unfold expect
  split
  · exact accept_len c s
  · split <;> simp [error]

theorem expect_cons {c : Char} {s : ParserState} {ts : List Char} (h : s.tokens = c :: ts) :
    expect c s = { s with tokens := ts } := by
  unfold expect
  rw [accept_cons_eq h]
  simp

end Parser

namespace Parser

/-- The failure flag is sticky across every grammar rule: a run that starts
with the flag set ends with it set (proved for all five fuelled rules at
once, by induction on the fuel). -/
theorem sticky_all : ∀ fuel : Nat,
    (∀ s r, base fuel s = some r → s.failure = true → r.2.failure = true) ∧
    (∀ s r, factor fuel s = some r → s.failure = true → r.2.failure = true) ∧
    (∀ s acc r, termLoop fuel s acc = some r → s.failure = true → r.2.failure = true) ∧
    (∀ s r, term fuel s = some r → s.failure = true → r.2.failure = true) ∧
    (∀ s r, regex fuel s = some r → s.failure = true → r.2.failure = true) := by
  intro fuel
  induction fuel with
  | zero =>
    refine ⟨?_, ?_, ?_, ?_, ?_⟩
    · intro s r h; simp [base] at h
    · intro s r h; simp [factor] at h
    · intro s acc r h; simp [termLoop] at h
    · intro s r h; simp [term] at h
    · intro s r h; simp [regex] at h
  | succ fuel ih =>
    obtain ⟨ihb, ihf, ihl, iht, ihr⟩ := ih
    refine ⟨?_, ?_, ?_, ?_, ?_⟩
    · -- base
      intro s r h hf
      simp only [base] at h
      split at h
      · split at h
        · rename_i r' s2 heq
          cases h
          exact expect_sticky (ihr _ _ heq (by rw [accept_failure]; exact hf))
        · exact absurd h (by simp)
      · split at h
        · cases h; rw [accept_failure]; exact hf
        · split at h
          · cases h; exact error_failure _ _
          · split at h
            · cases h; rw [nextToken_failure]; exact hf
            · exact absurd h (by simp)
    · -- factor
      intro s r h hf
      simp only [factor] at h
      split at h
      · rename_i b s1 heq
        split at h
        · cases h; rw [accept_failure]; exact ihb _ _ heq hf
        · cases h; exact ihb _ _ heq hf
      · exact absurd h (by simp)
    · -- termLoop
      intro s acc r h hf
      simp only [termLoop] at h
      split at h
      · split at h
        · cases h; exact hf
        · split at h
          · rename_i n s1 heq
            exact ihl _ _ _ h (ihf _ _ heq hf)
          · exact absurd h (by simp)
      · cases h; exact hf
    · -- term
      intro s r h hf
      simp only [term] at h
      split at h
      · rename_i exps s1 heq
        cases h
        show (if exps.isEmpty = true then error ParseError.emptyFactor s1 else s1).failure = true
        split
        · exact error_failure _ _
        · exact ihl _ _ (exps, s1) heq hf
      · exact absurd h (by simp)
    · -- regex
      intro s r h hf
      simp only [regex] at h
      split at h
      · rename_i t s1 heq
        split at h
        · rename_i hbar
          split at h
          · rename_i t2 s2 heq2
            cases h
            exact iht _ (t2, s2) heq2 (by rw [accept_failure]; exact iht _ _ heq hf)
          · exact absurd h (by simp)
        · cases h; exact iht _ _ heq hf
      · exact absurd h (by simp)

end Parser

namespace Parser

theorem pinv_init (w : List Char) : Pinv (init w) := by simp [Pinv, init]

theorem pinv_error (e : ParseError) (s : ParserState) : Pinv (error e s) := by
  simp [Pinv, error]

theorem pinv_accept (c : Char) (s : ParserState) (h : Pinv s) : Pinv ((accept c s).2) := by
  unfold Pinv
  rw [accept_failure, accept_errors]
  exact h

theorem pinv_expect (c : Char) (s : ParserState) (h : Pinv s) : Pinv (expect c s) := by
  unfold expect
  split
  · exact pinv_accept c s h
  · split <;> exact pinv_error _ _

/-- Every rule preserves the failure/error-log invariant. -/
theorem pinv_all : ∀ fuel : Nat,
    (∀ s r, base fuel s = some r → Pinv s → Pinv r.2) ∧
    (∀ s r, factor fuel s = some r → Pinv s → Pinv r.2) ∧
    (∀ s acc r, termLoop fuel s acc = some r → Pinv s → Pinv r.2) ∧
    (∀ s r, term fuel s = some r → Pinv s → Pinv r.2) ∧
    (∀ s r, regex fuel s = some r → Pinv s → Pinv r.2) := by
  intro fuel
  induction fuel with
  | zero =>
    refine ⟨?_, ?_, ?_, ?_, ?_⟩
    · intro s r h; simp [base] at h
    · intro s r h; simp [factor] at h
    · intro s acc r h; simp [termLoop] at h
    · intro s r h; simp [term] at h
    · intro s r h; simp [regex] at h
  | succ fuel ih =>
    obtain ⟨ihb, ihf, ihl, iht, ihr⟩ := ih
    refine ⟨?_, ?_, ?_, ?_, ?_⟩
    · -- base
      intro s r h hp
      simp only [base] at h
      split at h
      · split at h
        · rename_i r' s2 heq
          cases h
          exact pinv_expect _ _ (ihr _ _ heq (pinv_accept _ _ hp))
        · exact absurd h (by simp)
      · split at h
        · cases h; exact pinv_accept _ _ hp
        · split at h
          · cases h; exact pinv_error _ _
          · split at h
            · cases h
              unfold Pinv
              rw [nextToken_failure]
              exact hp
            · exact absurd h (by simp)
    · -- factor
      intro s r h hp
      simp only [factor] at h
      split at h
      · rename_i b s1 heq
        split at h
        · cases h; exact pinv_accept _ _ (ihb _ _ heq hp)
        · cases h; exact ihb _ _ heq hp
      · exact absurd h (by simp)
    · -- termLoop
      intro s acc r h hp
      simp only [termLoop] at h
      split at h
      · split at h
        · cases h; exact hp
        · split at h
          · rename_i n s1 heq
            exact ihl _ _ _ h (ihf _ _ heq hp)
          · exact absurd h (by simp)
      · cases h; exact hp
    · -- term
      intro s r h hp
      simp only [term] at h
      split at h
      · rename_i exps s1 heq
        cases h
        show Pinv (if exps.isEmpty = true then error ParseError.emptyFactor s1 else s1)
        split
        · exact pinv_error _ _
        · exact ihl _ _ (exps, s1) heq hp
      · exact absurd h (by simp)
    · -- regex
      intro s r h hp
      simp only [regex] at h
      split at h
      · rename_i t s1 heq
        split at h
        · split at h
          · rename_i t2 s2 heq2
            cases h
            exact iht _ (t2, s2) heq2 (pinv_accept _ _ (iht _ _ heq hp))
          · exact absurd h (by simp)
        · cases h; exact iht _ _ heq hp
      · exact absurd h (by simp)

end Parser

/-- Claim C7: a whole parse returns the constructed tree exactly when the
failure flag is unset at the end (after the trailing-input check), and
whenever any error was recorded during the parse the result is the null
result, never a partial tree. -/
theorem claim_C7_result_iff_no_failure :
    ∀ (inp : String) (r : Option Node) (s : ParserState),
      Parser.parse inp = some (r, s) →
      ((r.isSome ↔ s.failure = false) ∧ (s.errors ≠ [] → r = none)) := by
  intro inp r s h
  unfold Parser.parse Parser.parseL Parser.parseAux at h
  split at h
  · rename_i t s1 heq
    have hp1 : Parser.Pinv s1 :=
      (Parser.pinv_all _).2.2.2.2 _ _ heq (Parser.pinv_init _)
    cases h
    generalize hs2 : (match s1.tokens with
      | t :: _ => Parser.error (ParseError.unexpectedSymbol t) s1
      | [] => s1) = s2
    have hp2 : Parser.Pinv s2 := by
      rw [← hs2]
      split
      · exact Parser.pinv_error _ _
      · exact hp1
    constructor
    · cases hf : s2.failure <;> simp [hf]
    · intro herr
      have hfl : s2.failure = true := hp2.mpr herr
      simp [hfl]
  · exact absurd h (by simp)

/-- Witness for C7 at the concrete input `a`. -/
theorem claim_C7_witness :
    ((some (Node.Normal 'a')).isSome ↔ (false : Bool) = false) ∧
    (([] : List ParseError) ≠ [] → some (Node.Normal 'a') = none) :=
  claim_C7_result_iff_no_failure "a" (some (Node.Normal 'a')) ⟨[], false, []⟩ rfl

/-- Claim C9: the failure flag starts unset and is sticky: every parser
operation — the primitives `error`, `next_token`, `accept`, `expect`, the
four grammar rules (and the term loop), and the top-level `parse` body —
preserves the flag once it is set; no operation ever resets it. -/
theorem claim_C9_sticky_flag :
    (∀ w : List Char, (Parser.init w).failure = false) ∧
    (∀ (e : ParseError) (s : ParserState), (Parser.error e s).failure = true) ∧
    (∀ s : ParserState, s.failure = true → (Parser.nextToken s).failure = true) ∧
    (∀ (c : Char) (s : ParserState), s.failure = true → ((Parser.accept c s).2).failure = true) ∧
    (∀ (c : Char) (s : ParserState), s.failure = true → (Parser.expect c s).failure = true) ∧
    (∀ fuel s r, Parser.base fuel s = some r → s.failure = true → r.2.failure = true) ∧
    (∀ fuel s r, Parser.factor fuel s = some r → s.failure = true → r.2.failure = true) ∧
    (∀ fuel s acc r, Parser.termLoop fuel s acc = some r → s.failure = true → r.2.failure = true) ∧
    (∀ fuel s r, Parser.term fuel s = some r → s.failure = true → r.2.failure = true) ∧
    (∀ fuel s r, Parser.regex fuel s = some r → s.failure = true → r.2.failure = true) ∧
    (∀ fuel s r, Parser.parseAux fuel s = some r → s.failure = true → r.2.failure = true) := by
  refine ⟨fun _ => rfl, Parser.error_failure, ?_, ?_, @Parser.expect_sticky,
    fun fuel => (Parser.sticky_all fuel).1, fun fuel => (Parser.sticky_all fuel).2.1,
    fun fuel => (Parser.sticky_all fuel).2.2.1, fun fuel => (Parser.sticky_all fuel).2.2.2.1,
    fun fuel => (Parser.sticky_all fuel).2.2.2.2, ?_⟩
  · intro s h
    rw [Parser.nextToken_failure]
    exact h
  · intro c s h
    rw [Parser.accept_failure]
    exact h
  · intro fuel s r h hf
    unfold Parser.parseAux at h
    split at h
    · rename_i t s1 heq
      cases h
      have h1 : s1.failure = true := (Parser.sticky_all fuel).2.2.2.2 _ _ heq hf
      show (match s1.tokens with
        | t :: _ => Parser.error (ParseError.unexpectedSymbol t) s1
        | [] => s1).failure = true
      split
      · exact rfl
      · exact h1
    · exact absurd h (by simp)

/-- Witness for C9: concrete instances of each sticky-flag conjunct, at
states whose failure flag is already set. -/
theorem claim_C9_witness :
    (Parser.init ['a']).failure = false ∧
    (Parser.error ParseError.emptyFactor ⟨['a'], false, []⟩).failure = true ∧
    (Parser.nextToken ⟨['a'], true, [ParseError.emptyFactor]⟩).failure = true ∧
    ((Parser.accept 'a' ⟨['a'], true, [ParseError.emptyFactor]⟩).2).failure = true ∧
    (Parser.expect 'a' ⟨['a'], true, [ParseError.emptyFactor]⟩).failure = true ∧
    ((Node.Normal 'a', (⟨[], true, [ParseError.emptyFactor]⟩ : ParserState)) :
        Node × ParserState).2.failure = true := by
  obtain ⟨h1, h2, h3, h4, h5, h6, _⟩ := claim_C9_sticky_flag
  exact ⟨h1 ['a'], h2 _ _, h3 _ rfl, h4 'a' _ rfl, h5 'a' _ rfl,
    h6 5 ⟨['a'], true, [ParseError.emptyFactor]⟩
      (Node.Normal 'a', ⟨[], true, [ParseError.emptyFactor]⟩) rfl rfl⟩

namespace Parser

/-- Token consumption: `base` and `factor` always consume at least one
character; the loop and the other rules never lengthen the input. -/
theorem decrease_all : ∀ fuel : Nat,
    (∀ s r, base fuel s = some r → r.2.tokens.length < s.tokens.length) ∧
    (∀ s r, factor fuel s = some r → r.2.tokens.length < s.tokens.length) ∧
    (∀ s acc r, termLoop fuel s acc = some r → r.2.tokens.length ≤ s.tokens.length) ∧
    (∀ s r, term fuel s = some r → r.2.tokens.length ≤ s.tokens.length) ∧
    (∀ s r, regex fuel s = some r → r.2.tokens.length ≤ s.tokens.length) := by
  intro fuel
  induction fuel with
  | zero =>
    refine ⟨?_, ?_, ?_, ?_, ?_⟩
    · intro s r h; simp [base] at h
    · intro s r h; simp [factor] at h
    · intro s acc r h; simp [termLoop] at h
    · intro s r h; simp [term] at h
    · intro s r h; simp [regex] at h
  | succ fuel ih =>
    obtain ⟨ihb, ihf, ihl, iht, ihr⟩ := ih
    refine ⟨?_, ?_, ?_, ?_, ?_⟩
    · -- base
      intro s r h
      simp only [base] at h
      split at h
      · rename_i ht
        have hlen := accept_true_len ht
        split at h
        · rename_i r' s2 heq
          cases h
          have h1 : s2.tokens.length ≤ ((accept '(' s).2).tokens.length := ihr _ _ heq
          have h2 := expect_len ')' s2
          show (expect ')' s2).tokens.length < s.tokens.length
          omega
        · exact absurd h (by simp)
      · split at h
        · rename_i ht
          have hlen := accept_true_len ht
          cases h
          show ((accept '.' s).2).tokens.length < s.tokens.length
          omega
        · split at h
          · rename_i ht
            have hlen := accept_true_len ht
            cases h
            show (error (ParseError.unexpectedSymbol '*') (accept '*' s).2).tokens.length
              < s.tokens.length
            rw [error_tokens]
            omega
          · split at h
            · rename_i t tail heq
              cases h
              show (nextToken s).tokens.length < s.tokens.length
              simp [nextToken, heq]
            · exact absurd h (by simp)
    · -- factor
      intro s r h
      simp only [factor] at h
      split at h
      · rename_i b s1 heq
        have h1 : s1.tokens.length < s.tokens.length := ihb _ _ heq
        split at h
        · rename_i ht
          have hlen := accept_true_len ht
          cases h
          show ((accept '*' s1).2).tokens.length < s.tokens.length
          omega
        · cases h
          exact h1
      · exact absurd h (by simp)
    · -- termLoop
      intro s acc r h
      simp only [termLoop] at h
      split at h
      · split at h
        · cases h; exact le_refl _
        · split at h
          · rename_i n s1 heq
            have h1 : s1.tokens.length < s.tokens.length := ihf _ _ heq
            have h2 := ihl _ _ _ h
            omega
          · exact absurd h (by simp)
      · cases h; exact le_refl _
    · -- term
      intro s r h
      simp only [term] at h
      split at h
      · rename_i exps s1 heq
        cases h
        have h1 := ihl _ _ (exps, s1) heq
        show (if exps.isEmpty = true then error ParseError.emptyFactor s1
          else s1).tokens.length ≤ s.tokens.length
        split
        · rw [error_tokens]; exact h1
        · exact h1
      · exact absurd h (by simp)
    · -- regex
      intro s r h
      simp only [regex] at h
      split at h
      · rename_i t s1 heq
        have h1 : s1.tokens.length ≤ s.tokens.length := iht _ _ heq
        split at h
        · rename_i hcond
          split at h
          · rename_i t2 s2 heq2
            cases h
            have h2 := accept_true_len hcond.2
            have h3 : s2.tokens.length ≤ ((accept '|' s1).2).tokens.length :=
              iht _ (t2, s2) heq2
            show s2.tokens.length ≤ s.tokens.length
            omega
          · exact absurd h (by simp)
        · cases h; exact h1
      · exact absurd h (by simp)

/-- The fuel bound `5 * remaining + rank` suffices: with that much fuel no
rule runs out, and `base` is never entered on empty input (so the unguarded
`peek` never fires). -/
theorem suff_all : ∀ fuel : Nat,
    (∀ s, s.tokens ≠ [] → 5 * s.tokens.length < fuel → (base fuel s).isSome) ∧
    (∀ s, s.tokens ≠ [] → 5 * s.tokens.length + 1 < fuel → (factor fuel s).isSome) ∧
    (∀ s acc, 5 * s.tokens.length + 2 < fuel → (termLoop fuel s acc).isSome) ∧
    (∀ s, 5 * s.tokens.length + 3 < fuel → (term fuel s).isSome) ∧
    (∀ s, 5 * s.tokens.length + 4 < fuel → (regex fuel s).isSome) := by
  intro fuel
  induction fuel with
  | zero =>
    refine ⟨?_, ?_, ?_, ?_, ?_⟩
    · intro s _ h; omega
    · intro s _ h; omega
    · intro s _ h; omega
    · intro s h; omega
    · intro s h; omega
  | succ fuel ih =>
    obtain ⟨ihb, ihf, ihl, iht, ihr⟩ := ih
    refine ⟨?_, ?_, ?_, ?_, ?_⟩
    · -- base
      intro s hne h
      have hL : 1 ≤ s.tokens.length := by
        cases hts : s.tokens with
        | nil => exact absurd hts hne
        | cons t tail => simp [hts]
      simp only [base]
      split
      · rename_i ht
        have hlen := accept_true_len ht
        have hsome := ihr ((accept '(' s).2) (by omega)
        rcases hreg : regex fuel ((accept '(' s).2) with _ | ⟨r, s2⟩
        · rw [hreg] at hsome; simp at hsome
        · simp [hreg]
      · split
        · simp
        · split
          · simp
          · split
            · simp
            · rename_i heq
              exact absurd heq hne
    · -- factor
      intro s hne h
      simp only [factor]
      have hsome := ihb s hne (by omega)
      rcases hb : base fuel s with _ | ⟨b, s1⟩
      · rw [hb] at hsome; simp at hsome
      · simp only [hb]
        split <;> simp
    · -- termLoop
      intro s acc h
      simp only [termLoop]
      split
      · rename_i t tail heq
        split
        · simp
        · have hne : s.tokens ≠ [] := by rw [heq]; simp
          have hsome := ihf s hne (by omega)
          rcases hfac : factor fuel s with _ | ⟨n, s1⟩
          · rw [hfac] at hsome; simp at hsome
          · have hlt : s1.tokens.length < s.tokens.length := (decrease_all fuel).2.1 _ _ hfac
            have hrec := ihl s1 (acc ++ [n]) (by omega)
            simp only [hfac]
            exact hrec
      · simp
    · -- term
      intro s h
      simp only [term]
      have hsome := ihl s [] (by omega)
      rcases h1 : termLoop fuel s [] with _ | ⟨exps, s1⟩
      · rw [h1] at hsome; simp at hsome
      · simp [h1]
    · -- regex
      intro s h
      simp only [regex]
      have hsome := iht s (by omega)
      rcases h1 : term fuel s with _ | ⟨t, s1⟩
      · rw [h1] at hsome; simp at hsome
      · simp only [h1]
        split
        · rename_i hcond
          have hle : s1.tokens.length ≤ s.tokens.length := (decrease_all fuel).2.2.2.1 _ _ h1
          have hlen := accept_true_len hcond.2
          have hsome2 := iht ((accept '|' s1).2) (by omega)
          rcases h2 : term fuel ((accept '|' s1).2) with _ | ⟨t2, s2⟩
          · rw [h2] at hsome2; simp at hsome2
          · simp [h2]
        · simp

end Parser

/-- Claim C8: the parser terminates and never raises: on every input
(malformed ones included) the whole parse completes — the chosen fuel never
runs out and the unguarded `peek` in `base` is never reached with empty
input (`none` is never produced) — and every successful `base` call
consumes at least one character, which bounds the recursion. -/
theorem claim_C8_total :
    (∀ inp : String, (Parser.parse inp).isSome) ∧
    (∀ fuel s r, Parser.base fuel s = some r → r.2.tokens.length < s.tokens.length) := by
  constructor
  · intro inp
    unfold Parser.parse Parser.parseL Parser.parseAux
    have hsome := (Parser.suff_all (Parser.fuelFor inp.toList)).2.2.2.2
      (Parser.init inp.toList) (by simp [Parser.fuelFor, Parser.init])
    rcases h1 : Parser.regex (Parser.fuelFor inp.toList) (Parser.init inp.toList)
      with _ | ⟨t, s1⟩
    · rw [h1] at hsome; simp at hsome
    · simp [h1]
  · intro fuel
    exact (Parser.decrease_all fuel).1

/-- Witness for C8: the tree-returning conjunct applied at input `ab`, and
the consumption conjunct applied to a concrete successful `base` run. -/
theorem claim_C8_witness :
    (Parser.parse "ab").isSome ∧
    ((Node.Normal 'a', (⟨[], false, []⟩ : ParserState)) : Node × ParserState).2.tokens.length
      < (Parser.init ['a']).tokens.length :=
  ⟨claim_C8_total.1 "ab",
   claim_C8_total.2 5 (Parser.init ['a']) (Node.Normal 'a', ⟨[], false, []⟩) rfl⟩

namespace Parser

theorem wfList_append : ∀ as bs : List Node, wfList (as ++ bs) = (wfList as && wfList bs) := by
  intro as bs
  induction as with
  | nil => simp [wfList]
  | cons a as ih => simp [wfList, ih, Bool.and_assoc]

/-- Any tree a rule returns alongside an unset failure flag is well formed:
the empty `Str`, the one-child `Str` and the bare `Node()` sentinel can
reach the caller only together with a set flag. -/
theorem wf_all : ∀ fuel : Nat,
    (∀ s r, base fuel s = some r → r.2.failure = false → wf r.1 = true) ∧
    (∀ s r, factor fuel s = some r → r.2.failure = false → wf r.1 = true) ∧
    (∀ s acc r, termLoop fuel s acc = some r → r.2.failure = false →
        wfList acc = true → wfList r.1 = true) ∧
    (∀ s r, term fuel s = some r → r.2.failure = false → wf r.1 = true) ∧
    (∀ s r, regex fuel s = some r → r.2.failure = false → wf r.1 = true) := by
  intro fuel
  induction fuel with
  | zero =>
    refine ⟨?_, ?_, ?_, ?_, ?_⟩
    · intro s r h; simp [base] at h
    · intro s r h; simp [factor] at h
    · intro s acc r h; simp [termLoop] at h
    · intro s r h; simp [term] at h
    · intro s r h; simp [regex] at h
  | succ fuel ih =>
    obtain ⟨ihb, ihf, ihl, iht, ihr⟩ := ih
    refine ⟨?_, ?_, ?_, ?_, ?_⟩
    · -- base
      intro s r h hf
      simp only [base] at h
      split at h
      · split at h
        · rename_i r' s2 heq
          cases h
          exact ihr _ (r', s2) heq (expect_unfail hf)
        · exact absurd h (by simp)
      · split at h
        · cases h; rfl
        · split at h
          · cases h
            simp [error] at hf
          · split at h
            · cases h; rfl
            · exact absurd h (by simp)
    · -- factor
      intro s r h hf
      simp only [factor] at h
      split at h
      · rename_i b s1 heq
        split at h
        · cases h
          have hs1 : s1.failure = false := by
            rw [← accept_failure '*' s1]
            exact hf
          have hb := ihb _ (b, s1) heq hs1
          simpa [wf] using hb
        · cases h
          exact ihb _ (b, s1) heq hf
      · exact absurd h (by simp)
    · -- termLoop
      intro s acc r h hf hacc
      simp only [termLoop] at h
      split at h
      · split at h
        · cases h; exact hacc
        · split at h
          · rename_i n s1 heq
            have hs1 : s1.failure = false := by
              cases hfl : s1.failure
              · rfl
              · have := (sticky_all fuel).2.2.1 _ _ _ h hfl
                rw [hf] at this
                exact absurd this (by simp)
            have hn := ihf _ (n, s1) heq hs1
            refine ihl _ _ _ h hf ?_
            rw [wfList_append, hacc]
            simpa [wfList] using hn
          · exact absurd h (by simp)
      · cases h; exact hacc
    · -- term
      intro s r h hf
      simp only [term] at h
      split at h
      · rename_i exps s1 heq
        cases h
        rcases hex : exps with _ | ⟨e, _ | ⟨e2, es⟩⟩
        · subst hex
          simp [error] at hf
        · subst hex
          simp only [List.isEmpty_cons, if_neg] at hf ⊢
          have := ihl _ _ ([e], s1) heq (by simpa using hf) rfl
          simpa [wfList] using this
        · subst hex
          simp only [List.isEmpty_cons, if_neg] at hf ⊢
          have := ihl _ _ (e :: e2 :: es, s1) heq (by simpa using hf) rfl
          show wf (Node.Str (e :: e2 :: es)) = true
          simp only [wf]
          simp [this]
      · exact absurd h (by simp)
    · -- regex
      intro s r h hf
      simp only [regex] at h
      split at h
      · rename_i t s1 heq
        split at h
        · split at h
          · rename_i t2 s2 heq2
            cases h
            have ht2 := iht _ (t2, s2) heq2 hf
            have hacc : ((accept '|' s1).2).failure = false := by
              cases hfl : ((accept '|' s1).2).failure
              · rfl
              · have := (sticky_all fuel).2.2.2.1 _ (t2, s2) heq2 hfl
                rw [hf] at this
                exact absurd this (by simp)
            have hs1 : s1.failure = false := by
              rw [← accept_failure '|' s1]
              exact hacc
            have ht := iht _ (t, s1) heq hs1
            show wf (Node.Or t t2) = true
            simp [wf, ht, ht2]
          · exact absurd h (by simp)
        · cases h
          exact iht _ (t, s1) heq hf
      · exact absurd h (by simp)

end Parser

/-- Claim C10: every tree returned by a successful parse is well formed:
all nodes are among the five concrete variants (the bare `Node()` sentinel
never escapes) and every `Str` node has at least two children — the
singleton `Str` is collapsed by `term`, and the empty `Str` and the
sentinel only arise with the failure flag set, which makes `parse` return
no tree. -/
theorem claim_C10_wellformed :
    ∀ (inp : String) (t : Node), Parser.parseResult inp = some t → Parser.wf t = true := by
  intro inp t h
  unfold Parser.parseResult Parser.parse Parser.parseL Parser.parseAux at h
  rcases heq : Parser.regex (Parser.fuelFor inp.toList) (Parser.init inp.toList)
    with _ | ⟨t', s1⟩
  · rw [heq] at h
    simp at h
  · rw [heq] at h
    rcases hts : s1.tokens with _ | ⟨c, cs⟩
    · simp only [hts] at h
      cases hfl : s1.failure
      · rw [hfl] at h
        simp at h
        subst h
        exact (Parser.wf_all _).2.2.2.2 _ (t', s1) heq hfl
      · rw [hfl] at h
        simp at h
    · simp only [hts] at h
      simp [Parser.error] at h

/-- Witness for C10 at the concrete input `ab`. -/
theorem claim_C10_witness : Parser.wf (Node.Str [Node.Normal 'a', Node.Normal 'b']) = true :=
  claim_C10_wellformed "ab" (Node.Str [Node.Normal 'a', Node.Normal 'b']) rfl

namespace Parser

/-- A valid `base` (and hence factor, term) starts with a character that is
not `)`, `|` or `*`. -/
theorem valid_base_shape {w : List Char} (h : Valid .base w) :
    ∃ c cs, w = c :: cs ∧ c ≠ ')' ∧ c ≠ '|' ∧ c ≠ '*' := by
  cases h with
  | chr hc =>
    rename_i c
    refine ⟨c, [], rfl, ?_, ?_, ?_⟩ <;>
      · intro hEq
        subst hEq
        simp [reservedChars] at hc
  | dot => exact ⟨'.', [], rfl, by decide, by decide, by decide⟩
  | grp hw => exact ⟨'(', _, rfl, by decide, by decide, by decide⟩

theorem valid_factor_shape {w : List Char} (h : Valid .factor w) :
    ∃ c cs, w = c :: cs ∧ c ≠ ')' ∧ c ≠ '|' ∧ c ≠ '*' := by
  cases h with
  | fac hb => exact valid_base_shape hb
  | facStar hb =>
    obtain ⟨c, cs, rfl, h1, h2, h3⟩ := valid_base_shape hb
    exact ⟨c, cs ++ ['*'], by simp, h1, h2, h3⟩

theorem valid_term_shape {w : List Char} (h : Valid .term w) :
    ∃ c cs, w = c :: cs ∧ c ≠ ')' ∧ c ≠ '|' ∧ c ≠ '*' := by
  cases h with
  | termOne hf => exact valid_factor_shape hf
  | termCons hf ht =>
    rename_i w' v
    obtain ⟨c, cs, rfl, h1, h2, h3⟩ := valid_factor_shape hf
    exact ⟨c, cs ++ v, by simp, h1, h2, h3⟩

/-- The `term` loop returns immediately on a stop token. -/
theorem termLoop_stop {rest : List Char} (hstop : stopTok rest) :
    ∀ (s : ParserState) (acc : List Node) (fuel : Nat), 0 < fuel → s.tokens = rest →
    termLoop fuel s acc = some (acc, s) := by
  intro s acc fuel hfuel hts
  cases fuel with
  | zero => omega
  | succ f =>
    simp only [termLoop]
    rcases rest with _ | ⟨r, rs⟩
    · simp [hts]
    · have hr : r = ')' ∨ r = '|' := by
        rcases hstop with h1 | h1 | h1
        · simp at h1; exact Or.inl h1
        · simp at h1; exact Or.inr h1
        · simp at h1
      rcases hr with h | h <;> subst h <;> simp [hts]

/-- Lift the loop-level statement to `term` itself. -/
theorem term_from_loopP {w : List Char} (hP : ValidP .term w) :
    ∀ (s : ParserState) (rest : List Char) (fuel : Nat),
      s.tokens = w ++ rest → stopTok rest → 5 * s.tokens.length + 3 < fuel →
      ∃ t, term fuel s = some (t, ⟨rest, s.failure, s.errors⟩) := by
  intro s rest fuel hts hstop hfuel
  cases fuel with
  | zero => omega
  | succ f =>
    simp only [term]
    obtain ⟨ts, hne, hloop⟩ := hP s rest [] f hts hstop (by omega)
    rw [hloop]
    rcases ts with _ | ⟨e, _ | ⟨e2, es⟩⟩
    · exact absurd rfl hne
    · exact ⟨e, rfl⟩
    · exact ⟨Node.Str (e :: e2 :: es), rfl⟩

/-- A stop token is never `*`. -/
theorem stop_ne_star {rest : List Char} (h : stopTok rest) : rest.head? ≠ some '*' := by
  rcases h with h | h | h
  · rw [h]; decide
  · rw [h]; decide
  · rw [h]; decide

/-- The parser consumes exactly each valid phrase: it returns a node, moves
the cursor past the phrase, and records no error (proved by induction on
the derivation). -/
theorem valid_sound : ∀ {ru : Rule} {w : List Char}, Valid ru w → ValidP ru w := by
  intro ru w h
  induction h with
  | chr hc =>
    rename_i c
    simp only [ValidP]
    intro s rest fuel hts hfuel
    obtain ⟨hc1, hc2, hc3, hc4, hc5⟩ :
        c ≠ '(' ∧ c ≠ ')' ∧ c ≠ '|' ∧ c ≠ '*' ∧ c ≠ '.' := by
      simpa [reservedChars] using hc
    have hts' : s.tokens = c :: rest := hts
    cases fuel with
    | zero => omega
    | succ f =>
      refine ⟨.Normal c, ?_⟩
      simp only [base, accept_cons_ne hts' hc1, accept_cons_ne hts' hc5,
        accept_cons_ne hts' hc4]
      simp [hts', nextToken]
  | dot =>
    simp only [ValidP]
    intro s rest fuel hts hfuel
    have hts' : s.tokens = '.' :: rest := hts
    cases fuel with
    | zero => omega
    | succ f =>
      refine ⟨.Any, ?_⟩
      simp only [base, accept_cons_ne hts' (show '.' ≠ '(' by decide), accept_cons_eq hts']
      simp
  | grp hreg ih =>
    rename_i w'
    simp only [ValidP]
    intro s rest fuel hts hfuel
    have hts' : s.tokens = '(' :: ((w' ++ [')']) ++ rest) := hts
    rw [List.append_assoc] at hts'
    have hlen : s.tokens.length = w'.length + rest.length + 2 := by
      rw [hts']
      simp only [List.length_cons, List.length_append, List.length_nil]
      omega
    cases fuel with
    | zero => omega
    | succ f =>
      simp only [base, accept_cons_eq hts']
      obtain ⟨t, hr⟩ := ih ⟨w' ++ ([')'] ++ rest), s.failure, s.errors⟩ (')' :: rest) f
        rfl (Or.inl rfl)
        (by simp only [List.length_cons, List.length_append, List.length_nil]; omega)
      refine ⟨t, ?_⟩
      simp only [hr]
      rw [expect_cons rfl]
      simp
  | fac hb ih =>
    simp only [ValidP]
    intro s rest fuel hts hstar hfuel
    cases fuel with
    | zero => omega
    | succ f =>
      obtain ⟨t, hb'⟩ := ih s rest f hts (by omega)
      simp only [factor, hb']
      have hacc : accept '*' (⟨rest, s.failure, s.errors⟩ : ParserState) =
          (false, ⟨rest, s.failure, s.errors⟩) := by
        rcases hrest : rest with _ | ⟨r, rs⟩
        · exact accept_nil rfl
        · refine accept_cons_ne rfl ?_
          intro hEq
          subst hEq
          exact hstar (by rw [hrest]; rfl)
      rw [hacc]
      exact ⟨t, by simp⟩
  | facStar hb ih =>
    rename_i w'
    simp only [ValidP]
    intro s rest fuel hts hstar hfuel
    have hts' : s.tokens = w' ++ ('*' :: rest) := by
      rw [hts, List.append_assoc]
      rfl
    cases fuel with
    | zero => omega
    | succ f =>
      obtain ⟨t, hb'⟩ := ih s ('*' :: rest) f hts' (by omega)
      simp only [factor, hb']
      rw [accept_cons_eq rfl]
      exact ⟨.ZeroOrMore t, by simp⟩
  | termOne hf ihf =>
    simp only [ValidP]
    intro s rest acc fuel hts hstop hfuel
    obtain ⟨c, cs, hw, hc1, hc2, hc3⟩ := valid_factor_shape hf
    cases fuel with
    | zero => omega
    | succ f =>
      have hts' : s.tokens = c :: (cs ++ rest) := by rw [hts, hw]; rfl
      simp only [termLoop, hts']
      rw [if_neg (by rintro (hEq | hEq); exacts [hc1 hEq, hc2 hEq])]
      obtain ⟨t, hfac⟩ := ihf s rest f hts (stop_ne_star hstop) (by omega)
      simp only [hfac]
      rw [termLoop_stop hstop _ (acc ++ [t]) f (by omega) rfl]
      exact ⟨[t], by simp, rfl⟩
  | termCons hf ht ihf iht =>
    rename_i w' v
    simp only [ValidP]
    intro s rest acc fuel hts hstop hfuel
    obtain ⟨c, cs, hw, hc1, hc2, hc3⟩ := valid_factor_shape hf
    obtain ⟨d, ds, hv, hd1, hd2, hd3⟩ := valid_term_shape ht
    cases fuel with
    | zero => omega
    | succ f =>
      have hts0 : s.tokens = w' ++ (v ++ rest) := by rw [hts, List.append_assoc]
      have hts' : s.tokens = c :: (cs ++ (v ++ rest)) := by rw [hts0, hw]; rfl
      have hlen : s.tokens.length = cs.length + 1 + (v.length + rest.length) := by
        rw [hts']
        simp only [List.length_cons, List.length_append]
        omega
      simp only [termLoop, hts']
      rw [if_neg (by rintro (hEq | hEq); exacts [hc1 hEq, hc2 hEq])]
      have hstar : (v ++ rest).head? ≠ some '*' := by
        rw [hv]
        simpa using hd3
      obtain ⟨t, hfac⟩ := ihf s (v ++ rest) f hts0 hstar (by omega)
      simp only [hfac]
      obtain ⟨ts, hne, hloop⟩ := iht ⟨v ++ rest, s.failure, s.errors⟩ rest (acc ++ [t]) f
        rfl hstop (by show 5 * (v ++ rest).length + 2 < f; rw [List.length_append]; omega)
      refine ⟨t :: ts, by simp, ?_⟩
      rw [hloop]
      simp
  | regOne ht iht =>
    simp only [ValidP]
    intro s rest fuel hts hstop' hfuel
    cases fuel with
    | zero => omega
    | succ f =>
      simp only [regex]
      obtain ⟨t, hterm⟩ := term_from_loopP iht s rest f hts
        (by rcases hstop' with hr | hr; exacts [Or.inl hr, Or.inr (Or.inr hr)]) (by omega)
      simp only [hterm]
      rcases hstop' with hr | hr
      · rcases rest with _ | ⟨r, rs⟩
        · simp at hr
        · have hr' : r = ')' := by simpa using hr
          subst hr'
          rw [if_neg (by
            rintro ⟨-, hcond⟩
            rw [accept_cons_ne rfl (by decide)] at hcond
            simp at hcond)]
          exact ⟨t, rfl⟩
      · subst hr
        rw [if_neg (by rintro ⟨hcond, -⟩; exact hcond rfl)]
        exact ⟨t, rfl⟩
  | regOr ht1 ht2 ih1 ih2 =>
    rename_i w' v
    simp only [ValidP]
    intro s rest fuel hts hstop' hfuel
    obtain ⟨c, cs, hw, -, -, -⟩ := valid_term_shape ht1
    cases fuel with
    | zero => omega
    | succ f =>
      have hts0 : s.tokens = w' ++ ('|' :: (v ++ rest)) := by
        rw [hts, List.append_assoc]
        rfl
      have hlen : s.tokens.length = cs.length + 1 + (1 + (v.length + rest.length)) := by
        rw [hts0, hw]
        simp
        omega
      simp only [regex]
      obtain ⟨t1, hterm1⟩ := term_from_loopP ih1 s ('|' :: (v ++ rest)) f hts0
        (Or.inr (Or.inl rfl)) (by omega)
      simp only [hterm1]
      have haccept : accept '|' (⟨'|' :: (v ++ rest), s.failure, s.errors⟩ : ParserState) =
          (true, ⟨v ++ rest, s.failure, s.errors⟩) := accept_cons_eq rfl
      rw [if_pos ⟨by simp, by rw [haccept]⟩]
      simp only [haccept]
      obtain ⟨t2, hterm2⟩ := term_from_loopP ih2 ⟨v ++ rest, s.failure, s.errors⟩ rest f
        rfl (by rcases hstop' with hr | hr; exacts [Or.inl hr, Or.inr (Or.inr hr)])
        (by show 5 * (v ++ rest).length + 3 < f; rw [List.length_append]; omega)
      simp only [hterm2]
      exact ⟨.Or t1 t2, rfl⟩

end Parser

namespace Parser

/-- The rendering of a good factor starts with a character that is not
`)`, `|` or `*`. -/
theorem factorGood_head {t : Node} (h : factorGood t = true) :
    ∃ c cs, dispChars t = c :: cs ∧ c ≠ ')' ∧ c ≠ '|' ∧ c ≠ '*' := by
  cases t with
  | Normal c =>
    have hc : c ∉ reservedChars := by simpa [factorGood] using h
    obtain ⟨-, hc2, hc3, hc4, -⟩ :
        c ≠ '(' ∧ c ≠ ')' ∧ c ≠ '|' ∧ c ≠ '*' ∧ c ≠ '.' := by
      simpa [reservedChars] using hc
    exact ⟨c, [], rfl, hc2, hc3, hc4⟩
  | Any => exact ⟨'.', [], rfl, by decide, by decide, by decide⟩
  | Str es => exact ⟨'(', _, rfl, by decide, by decide, by decide⟩
  | ZeroOrMore e =>
    have he : baseShape e = true ∧ factorGood e = true := by
      simpa [factorGood] using h
    cases e with
    | Normal c =>
      have hc : c ∉ reservedChars := by simpa [factorGood] using he.2
      obtain ⟨-, hc2, hc3, hc4, -⟩ :
          c ≠ '(' ∧ c ≠ ')' ∧ c ≠ '|' ∧ c ≠ '*' ∧ c ≠ '.' := by
        simpa [reservedChars] using hc
      exact ⟨c, ['*'], rfl, hc2, hc3, hc4⟩
    | Any => exact ⟨'.', ['*'], rfl, by decide, by decide, by decide⟩
    | Str es =>
      exact ⟨'(', dispCharsList es ++ [')', '*'], by simp [dispChars], by decide,
        by decide, by decide⟩
    | ZeroOrMore e' => simp [baseShape] at he
    | Or e1 e2 => simp [baseShape] at he
    | NodeObj => simp [baseShape] at he
  | Or e1 e2 => simp [factorGood] at h
  | NodeObj => simp [factorGood] at h

/-- After a good factor list, the next character is never `*`. -/
theorem dclRest_head_ne_star {es : List Node} {rest : List Char}
    (hgl : factorGoodList es = true) (hstop : stopTok rest) :
    (dispCharsList es ++ rest).head? ≠ some '*' := by
  cases es with
  | nil =>
    show (dispCharsList [] ++ rest).head? ≠ some '*'
    simp only [dispCharsList, List.nil_append]
    exact stop_ne_star hstop
  | cons e es' =>
    have he : factorGood e = true := by
      have := hgl
      simp only [factorGoodList, Bool.and_eq_true] at this
      exact this.1
    obtain ⟨c, cs, hdc, h1, h2, h3⟩ := factorGood_head he
    show ((dispChars e ++ dispCharsList es') ++ rest).head? ≠ some '*'
    rw [hdc]
    simpa using h3

/-- Lift `RLp` to `term` itself (with the singleton collapse made
explicit). -/
theorem term_exact_of_RLp {es : List Node} (hP : RLp es) :
    ∀ (s : ParserState) (rest : List Char) (fuel : Nat),
      s.tokens = dispCharsList es ++ rest → stopTok rest → es ≠ [] →
      5 * s.tokens.length + 3 < fuel →
      term fuel s = some ((match es with | [e] => e | _ => Node.Str es),
        ⟨rest, s.failure, s.errors⟩) := by
  intro s rest fuel hts hstop hne hfuel
  cases fuel with
  | zero => omega
  | succ f =>
    simp only [term, hP s rest [] f hts hstop (by omega)]
    rcases es with _ | ⟨e, _ | ⟨e2, es'⟩⟩
    · exact absurd rfl hne
    · rfl
    · rfl

end Parser

namespace Parser

/-- A non-starred factor round trip follows from the base-level one. -/
theorem RFp_of_RBp {t : Node} (h : RBp t) : RFp t := by
  intro s rest fuel hts hstar hfuel
  cases fuel with
  | zero => omega
  | succ f =>
    simp only [factor, h s rest f hts (by omega)]
    have hacc : accept '*' (⟨rest, s.failure, s.errors⟩ : ParserState) =
        (false, ⟨rest, s.failure, s.errors⟩) := by
      rcases hrest : rest with _ | ⟨r, rs⟩
      · exact accept_nil rfl
      · refine accept_cons_ne rfl ?_
        intro hEq
        subst hEq
        exact hstar (by rw [hrest]; rfl)
    rw [hacc]
    simp

/-- Round trip for good trees: re-parsing the rendering of a good
base/factor, or of a rendered list of good factors, reconstructs exactly
the original trees and consumes exactly the rendering (induction on tree
size). -/
theorem roundtrip_main : ∀ n : Nat,
    (∀ t : Node, sizeOf t ≤ n →
      (baseShape t = true → factorGood t = true → RBp t) ∧
      (factorGood t = true → RFp t)) ∧
    (∀ es : List Node, sizeOf es ≤ n → factorGoodList es = true → RLp es) := by
  intro n
  induction n with
  | zero =>
    constructor
    · intro t hsz
      cases t <;> simp at hsz
    · intro es hsz
      cases es <;> simp at hsz
  | succ n ih =>
    obtain ⟨ihn, ihl⟩ := ih
    constructor
    · intro t hsz
      have hRB : baseShape t = true → factorGood t = true → RBp t := by
        intro hbs hg
        cases t with
        | Normal c =>
          intro s rest fuel hts hfuel
          have hc : c ∉ reservedChars := by simpa [factorGood] using hg
          obtain ⟨hc1, hc2, hc3, hc4, hc5⟩ :
              c ≠ '(' ∧ c ≠ ')' ∧ c ≠ '|' ∧ c ≠ '*' ∧ c ≠ '.' := by
            simpa [reservedChars] using hc
          have hts' : s.tokens = c :: rest := hts
          cases fuel with
          | zero => omega
          | succ f =>
            simp only [base, accept_cons_ne hts' hc1, accept_cons_ne hts' hc5,
              accept_cons_ne hts' hc4]
            simp [hts', nextToken]
        | Any =>
          intro s rest fuel hts hfuel
          have hts' : s.tokens = '.' :: rest := hts
          cases fuel with
          | zero => omega
          | succ f =>
            simp only [base, accept_cons_ne hts' (show '.' ≠ '(' by decide),
              accept_cons_eq hts']
            simp
        | Str es =>
          intro s rest fuel hts hfuel
          obtain ⟨h2, hgl⟩ : 2 ≤ es.length ∧ factorGoodList es = true := by
            simpa [factorGood] using hg
          have hsz' : sizeOf es ≤ n := by
            have hspec : sizeOf (Node.Str es) = 1 + sizeOf es := by simp
            omega
          have hRL : RLp es := ihl es hsz' hgl
          rcases es with _ | ⟨e1, _ | ⟨e2, es2⟩⟩
          · simp at h2
          · simp at h2
          · have hts' : s.tokens =
                '(' :: (dispCharsList (e1 :: e2 :: es2) ++ (')' :: rest)) := by
              rw [hts]
              simp [dispChars, List.append_assoc]
            have hlen : s.tokens.length =
                (dispCharsList (e1 :: e2 :: es2)).length + rest.length + 2 := by
              rw [hts']
              simp only [List.length_cons, List.length_append]
              omega
            cases fuel with
            | zero => omega
            | succ fu =>
              have hregex : regex fu
                  ⟨dispCharsList (e1 :: e2 :: es2) ++ (')' :: rest), s.failure, s.errors⟩
                  = some (Node.Str (e1 :: e2 :: es2),
                      ⟨')' :: rest, s.failure, s.errors⟩) := by
                cases fu with
                | zero => omega
                | succ g =>
                  have hterm := term_exact_of_RLp hRL
                    ⟨dispCharsList (e1 :: e2 :: es2) ++ (')' :: rest), s.failure, s.errors⟩
                    (')' :: rest) g rfl (Or.inl rfl) (by simp)
                    (by
                      show 5 * (dispCharsList (e1 :: e2 :: es2) ++ (')' :: rest)).length
                        + 3 < g
                      simp only [List.length_append, List.length_cons]
                      omega)
                  simp only [regex, hterm]
                  rw [if_neg (by
                    rintro ⟨-, hco⟩
                    rw [accept_cons_ne rfl (show ')' ≠ '|' by decide)] at hco
                    simp at hco)]
              simp only [base, accept_cons_eq hts', hregex]
              rw [expect_cons rfl]
              simp
        | ZeroOrMore e => simp [baseShape] at hbs
        | Or e1 e2 => simp [baseShape] at hbs
        | NodeObj => simp [baseShape] at hbs
      refine ⟨hRB, ?_⟩
      intro hg
      cases t with
      | Normal c => exact RFp_of_RBp (hRB rfl hg)
      | Any => exact RFp_of_RBp (hRB rfl hg)
      | Str es => exact RFp_of_RBp (hRB rfl hg)
      | ZeroOrMore e =>
        obtain ⟨hbs, hge⟩ : baseShape e = true ∧ factorGood e = true := by
          simpa [factorGood] using hg
        have hsz' : sizeOf e ≤ n := by
          have hspec : sizeOf (Node.ZeroOrMore e) = 1 + sizeOf e := by simp
          omega
        have hRBe : RBp e := (ihn e hsz').1 hbs hge
        intro s rest fuel hts hstar hfuel
        have hts' : s.tokens = dispChars e ++ ('*' :: rest) := by
          rw [hts]
          simp [dispChars, List.append_assoc]
        cases fuel with
        | zero => omega
        | succ f =>
          simp only [factor, hRBe s ('*' :: rest) f hts' (by omega)]
          rw [accept_cons_eq rfl]
          simp
      | Or e1 e2 => simp [factorGood] at hg
      | NodeObj => simp [factorGood] at hg
    · intro es hsz hgl
      cases es with
      | nil =>
        intro s rest acc fuel hts hstop hfuel
        obtain ⟨tk, fl, er⟩ := s
        have hts' : tk = rest := by simpa [dispCharsList] using hts
        subst hts'
        rw [termLoop_stop hstop _ acc fuel (by omega) rfl]
        simp
      | cons e es' =>
        obtain ⟨hge, hgl'⟩ : factorGood e = true ∧ factorGoodList es' = true := by
          simpa [factorGoodList, Bool.and_eq_true] using hgl
        obtain ⟨c, cs, hdc, hc1, hc2, hc3⟩ := factorGood_head hge
        have hsze : sizeOf e ≤ n := by
          have hspec : sizeOf (e :: es') = 1 + sizeOf e + sizeOf es' := by simp
          omega
        have hszes : sizeOf es' ≤ n := by
          have hspec : sizeOf (e :: es') = 1 + sizeOf e + sizeOf es' := by simp
          omega
        have hRFe : RFp e := (ihn e hsze).2 hge
        have hRLes : RLp es' := ihl es' hszes hgl'
        intro s rest acc fuel hts hstop hfuel
        have hts0 : s.tokens = dispChars e ++ (dispCharsList es' ++ rest) := by
          rw [hts]
          show (dispChars e ++ dispCharsList es') ++ rest = _
          rw [List.append_assoc]
        have hts' : s.tokens = c :: (cs ++ (dispCharsList es' ++ rest)) := by
          rw [hts0, hdc]
          rfl
        have hlen : s.tokens.length =
            cs.length + 1 + ((dispCharsList es').length + rest.length) := by
          rw [hts']
          simp only [List.length_cons, List.length_append]
          omega
        cases fuel with
        | zero => omega
        | succ f =>
          simp only [termLoop, hts']
          rw [if_neg (by rintro (hEq | hEq); exacts [hc1 hEq, hc2 hEq])]
          have hstar := dclRest_head_ne_star hgl' hstop
          simp only [hRFe s (dispCharsList es' ++ rest) f hts0 hstar (by omega)]
          have hloop := hRLes ⟨dispCharsList es' ++ rest, s.failure, s.errors⟩ rest
            (acc ++ [e]) f rfl hstop
            (by
              show 5 * (dispCharsList es' ++ rest).length + 2 < f
              rw [List.length_append]
              omega)
          rw [hloop]
          simp

end Parser

namespace Parser

/-- A good factor, rendered and re-parsed as a whole `term`, yields itself
(the loop collects exactly one factor, which `term` unwraps). -/
theorem good_factor_term {t : Node} (hfg : factorGood t = true) :
    ∀ (s : ParserState) (rest : List Char) (fuel : Nat),
      s.tokens = dispChars t ++ rest → stopTok rest → 5 * s.tokens.length + 3 < fuel →
      term fuel s = some (t, ⟨rest, s.failure, s.errors⟩) := by
  intro s rest fuel hts hstop hfuel
  have hRL : RLp [t] :=
    (roundtrip_main (sizeOf [t])).2 [t] le_rfl (by simp [factorGoodList, hfg])
  have hts1 : s.tokens = dispCharsList [t] ++ rest := by
    rw [hts]
    simp [dispCharsList]
  have h := term_exact_of_RLp hRL s rest fuel hts1 hstop (by simp) hfuel
  exact h

/-- A good factor, rendered and re-parsed as a whole `regex`, yields
itself. -/
theorem good_factor_regex {t : Node} (hfg : factorGood t = true) :
    ∀ (s : ParserState) (rest : List Char) (fuel : Nat),
      s.tokens = dispChars t ++ rest → (rest.head? = some ')' ∨ rest = []) →
      5 * s.tokens.length + 4 < fuel →
      regex fuel s = some (t, ⟨rest, s.failure, s.errors⟩) := by
  intro s rest fuel hts hstop' hfuel
  cases fuel with
  | zero => omega
  | succ f =>
    simp only [regex]
    have hterm := good_factor_term hfg s rest f hts
      (by rcases hstop' with hr | hr; exacts [Or.inl hr, Or.inr (Or.inr hr)]) (by omega)
    simp only [hterm]
    rcases hstop' with hr | hr
    · rcases rest with _ | ⟨r, rs⟩
      · simp at hr
      · have hr' : r = ')' := by simpa using hr
        subst hr'
        rw [if_neg (by
          rintro ⟨-, hco⟩
          rw [accept_cons_ne rfl (show ')' ≠ '|' by decide)] at hco
          simp at hco)]
    · subst hr
      rw [if_neg (by rintro ⟨hco, -⟩; exact hco rfl)]

/-- Any good tree, rendered and re-parsed as a whole `regex`, yields
itself (alternation at the root is re-assembled from its two rendered
branches). -/
theorem good_regex {t : Node} (hg : regexGood t = true) :
    ∀ (s : ParserState) (rest : List Char) (fuel : Nat),
      s.tokens = dispChars t ++ rest → (rest.head? = some ')' ∨ rest = []) →
      5 * s.tokens.length + 4 < fuel →
      regex fuel s = some (t, ⟨rest, s.failure, s.errors⟩) := by
  cases t with
  | Normal c => exact good_factor_regex (by simpa [regexGood] using hg)
  | Any => exact good_factor_regex (by simpa [regexGood] using hg)
  | ZeroOrMore e => exact good_factor_regex (by simpa [regexGood] using hg)
  | Str es => exact good_factor_regex (by simpa [regexGood] using hg)
  | NodeObj => exact good_factor_regex (by simpa [regexGood] using hg)
  | Or e1 e2 =>
    obtain ⟨hf1, hf2⟩ : factorGood e1 = true ∧ factorGood e2 = true := by
      simpa [regexGood] using hg
    intro s rest fuel hts hstop' hfuel
    have hts0 : s.tokens = dispChars e1 ++ ('|' :: (dispChars e2 ++ rest)) := by
      rw [hts]
      show (dispChars e1 ++ '|' :: dispChars e2) ++ rest = _
      simp [List.append_assoc]
    have hlen : s.tokens.length =
        (dispChars e1).length + 1 + ((dispChars e2).length + rest.length) := by
      rw [hts0]
      simp only [List.length_cons, List.length_append]
      omega
    cases fuel with
    | zero => omega
    | succ f =>
      simp only [regex]
      have hterm1 := good_factor_term hf1 s ('|' :: (dispChars e2 ++ rest)) f hts0
        (Or.inr (Or.inl rfl)) (by omega)
      simp only [hterm1]
      have haccept : accept '|'
          (⟨'|' :: (dispChars e2 ++ rest), s.failure, s.errors⟩ : ParserState) =
          (true, ⟨dispChars e2 ++ rest, s.failure, s.errors⟩) := accept_cons_eq rfl
      rw [if_pos ⟨by simp, by rw [haccept]⟩]
      simp only [haccept]
      have hterm2 := good_factor_term hf2
        ⟨dispChars e2 ++ rest, s.failure, s.errors⟩ rest f rfl
        (by rcases hstop' with hr | hr; exacts [Or.inl hr, Or.inr (Or.inr hr)])
        (by show 5 * (dispChars e2 ++ rest).length + 3 < f; rw [List.length_append]; omega)
      simp only [hterm2]

/-- Whole-parse round trip for good trees. -/
theorem good_parseL {t : Node} (hg : regexGood t = true) :
    parseL (dispChars t) = some (some t, ⟨[], false, []⟩) := by
  unfold parseL parseAux
  have hr := good_regex hg (init (dispChars t)) [] (fuelFor (dispChars t))
    (by simp [init]) (Or.inr rfl) (by simp [init, fuelFor])
  simp only [hr]
  simp [init]

/-- Whole-parse success on every valid input. -/
theorem valid_parseL {w : List Char} (h : Valid .regex w) :
    ∃ t, parseL w = some (some t, ⟨[], false, []⟩) := by
  obtain ⟨t, hr⟩ := valid_sound h (init w) [] (fuelFor w)
    (by simp [init]) (Or.inr rfl) (by simp [init, fuelFor])
  refine ⟨t, ?_⟩
  unfold parseL parseAux
  simp only [hr]
  simp [init]

end Parser

/-- Claim C1 (counterexample): render→parse→render is not idempotent after
the first normalization pass, and re-parsing a rendering can even fail.
The valid input `(a|(b|c))` parses to `Or a (Or b c)`, which renders as
`a|b|c` — and that rendering does not parse at all (trailing `|c`).  The
valid input `a(b|c)d` parses to a tree rendering as `(ab|cd)`, which
re-parses successfully but to a tree rendering as `(ab)|(cd)`, a different
string. -/
theorem claim_C1_counterexample :
    Parser.Valid .regex "(a|(b|c))".toList ∧
    Parser.parseL "(a|(b|c))".toList =
      some (some (.Or (.Normal 'a') (.Or (.Normal 'b') (.Normal 'c'))), ⟨[], false, []⟩) ∧
    dispChars (.Or (.Normal 'a') (.Or (.Normal 'b') (.Normal 'c'))) = "a|b|c".toList ∧
    Parser.parseL "a|b|c".toList =
      some (none, ⟨['|', 'c'], true, [.unexpectedSymbol '|']⟩) ∧
    Parser.Valid .regex "a(b|c)d".toList ∧
    Parser.parseL "a(b|c)d".toList =
      some (some (.Str [.Normal 'a', .Or (.Normal 'b') (.Normal 'c'), .Normal 'd']),
        ⟨[], false, []⟩) ∧
    dispChars (.Str [.Normal 'a', .Or (.Normal 'b') (.Normal 'c'), .Normal 'd']) =
      "(ab|cd)".toList ∧
    Parser.parseL "(ab|cd)".toList =
      some (some (.Or (.Str [.Normal 'a', .Normal 'b']) (.Str [.Normal 'c', .Normal 'd'])),
        ⟨[], false, []⟩) ∧
    dispChars (.Or (.Str [.Normal 'a', .Normal 'b']) (.Str [.Normal 'c', .Normal 'd'])) =
      "(ab)|(cd)".toList ∧
    "(ab)|(cd)".toList ≠ "(ab|cd)".toList := by
  have hb : Parser.Valid .term ['b'] := .termOne (.fac (.chr (by decide)))
  have hc : Parser.Valid .term ['c'] := .termOne (.fac (.chr (by decide)))
  have ha : Parser.Valid .term ['a'] := .termOne (.fac (.chr (by decide)))
  have hbc := @Parser.Valid.regOr ['b'] ['c'] hb hc
  have hgbc := @Parser.Valid.grp ['b', '|', 'c'] hbc
  have hvterm : Parser.Valid .term ['(', 'b', '|', 'c', ')'] := .termOne (.fac hgbc)
  have hinner := @Parser.Valid.regOr ['a'] ['(', 'b', '|', 'c', ')'] ha hvterm
  have houter := @Parser.Valid.grp ['a', '|', '(', 'b', '|', 'c', ')'] hinner
  have fa : Parser.Valid .factor ['a'] := .fac (.chr (by decide))
  have fg : Parser.Valid .factor ['(', 'b', '|', 'c', ')'] := .fac hgbc
  have fd : Parser.Valid .factor ['d'] := .fac (.chr (by decide))
  have t23 := @Parser.Valid.termCons ['(', 'b', '|', 'c', ')'] ['d'] fg (.termOne fd)
  have t123 : Parser.Valid .term ['a', '(', 'b', '|', 'c', ')', 'd'] :=
    @Parser.Valid.termCons ['a'] ['(', 'b', '|', 'c', ')', 'd'] fa t23
  exact ⟨.regOne (.termOne (.fac houter)), rfl, rfl, rfl, .regOne t123, rfl, rfl, rfl, rfl,
    by decide⟩

/-- Claim C1 (amended): every valid input parses successfully, consuming
everything and recording no error; and for every *good* tree — alternation
only as the two-branch root with non-alternation branches, every starred
subterm a literal, wildcard or group, every `Str` with at least two
children — re-parsing the rendering reconstructs exactly the same tree, so
its rendering is stable.  (Unrestricted render→parse→render idempotence
fails, as the counterexample shows.) -/
theorem claim_C1_amended :
    (∀ w : List Char, Parser.Valid .regex w →
      ∃ t, Parser.parseL w = some (some t, ⟨[], false, []⟩)) ∧
    (∀ t : Node, Parser.regexGood t = true →
      Parser.parseL (dispChars t) = some (some t, ⟨[], false, []⟩)) :=
  ⟨fun _ h => Parser.valid_parseL h, fun _ hg => Parser.good_parseL hg⟩

/-- Witness for C1 at the concrete valid input `a` and the concrete good
tree `Str [Normal a, Normal b]`. -/
theorem claim_C1_witness :
    (∃ t, Parser.parseL ['a'] = some (some t, ⟨[], false, []⟩)) ∧
    Parser.parseL (dispChars (Node.Str [Node.Normal 'a', Node.Normal 'b'])) =
      some (some (Node.Str [Node.Normal 'a', Node.Normal 'b']), ⟨[], false, []⟩) :=
  ⟨claim_C1_amended.1 ['a'] (.regOne (.termOne (.fac (.chr (by decide))))),
   claim_C1_amended.2 (Node.Str [Node.Normal 'a', Node.Normal 'b']) (by decide)⟩
